import Mathlib

/-!
Verification of the path-encoding and frontmatter-parsing core of the
docusaurus-smg static MCP generator.

The generator side is embedded from `src/index.js` (class `StaticMCPGenerator`:
`parseFrontmatter`, `parseYaml`, `parseMultilineValue`, `encodeUriForFilename`,
`createBridgeCompatiblePaths`); the resolver side from `tests/bridge-test.js`
(class `BridgeCompatibilityTester`: `simulateBridgeToolToPath`).

JavaScript host primitives (`String.prototype.trim`, `String.prototype.split`,
`Array.prototype.sort`, `Buffer.toString('base64')`, `Number`, `JSON.parse`)
are modelled explicitly; each model carries a comment naming the primitive and
the domain on which the model is exact.
-/

namespace StaticMCP

/-- The character class of the regex `[*?"<>|]` used by
`encodeUriForFilename` and `createBridgeCompatiblePaths`. -/
def specialChar (c : Char) : Bool :=
  c == '*' || c == '?' || c == '"' || c == '<' || c == '>' || c == '|'

/-- Pointwise action of `.replace(/[*?"<>|]/g, '_')` on one character. -/
def substChar (c : Char) : Char :=
  if specialChar c then '_' else c

/-- `s.replace(/[*?"<>|]/g, '_')`: every character of the class is replaced
by an underscore, all other characters are kept. -/
def substSpecial (s : String) : String :=
  String.mk (s.data.map substChar)

/-- Splitter for `s.split('://')` (JavaScript `String.prototype.split` with a
string separator): scans left to right, cutting at each non-overlapping
occurrence of `://`. `acc` holds the reversed characters of the current part. -/
def splitUriAux : List Char → List Char → List (List Char)
  | ':' :: '/' :: '/' :: rest, acc => acc.reverse :: splitUriAux rest []
  | c :: rest, acc => splitUriAux rest (c :: acc)
  | [], acc => [acc.reverse]

/-- `s.split('://')`. The result has at least one part; it has at least two
parts exactly when `s.includes('://')`. -/
def jsSplitUri (s : String) : List String :=
  (splitUriAux s.data []).map String.mk

/-- `encodeUriForFilename` from `src/index.js`:
if the URI contains `://` and splitting on it gives exactly two parts, the
second part is substituted; otherwise the whole URI is substituted.
(The source guards the two-part case by `uri.includes('://')`; a two-part
split implies inclusion, and a no-inclusion split is the singleton `[uri]`,
so matching on the split alone is the same function.) -/
def encodeUriForFilename (uri : String) : String :=
  match jsSplitUri uri with
  | [_, p2] => substSpecial p2
  | _ => substSpecial uri

/-- A JSON-like argument value, restricted to the scalar subset the spec's
data model supports (string, number, boolean). Numbers are modelled as
integers, whose JavaScript canonical textual form is the plain decimal
representation; non-integral doubles and structured (object/array) values are
outside the modelled domain. -/
inductive JsValue where
  | str (s : String)
  | num (n : Int)
  | bool (b : Bool)
deriving DecidableEq

/-- One decimal digit character; inputs are always taken mod 10 by callers,
so the catch-all only ever receives 9. -/
def decDigit : Nat → Char
  | 0 => '0' | 1 => '1' | 2 => '2' | 3 => '3' | 4 => '4'
  | 5 => '5' | 6 => '6' | 7 => '7' | 8 => '8' | _ => '9'

/-- Decimal digits of a natural number, most significant first, prepended to
`acc`. -/
def natDecRepAux (n : Nat) (acc : List Char) : List Char :=
  if n < 10 then decDigit (n % 10) :: acc
  else natDecRepAux (n / 10) (decDigit (n % 10) :: acc)
termination_by n
decreasing_by exact Nat.div_lt_self (by omega) (by omega)

/-- `Number.prototype.toString()` for an integral value: plain decimal with a
leading minus sign for negatives. -/
def intToDecimal (i : Int) : String :=
  if i < 0 then String.mk ('-' :: natDecRepAux (-i).toNat [])
  else String.mk (natDecRepAux i.toNat [])

/-- Stringification of an argument value. On the scalar domain the
generator's `String(v)` and the bridge tester's
`typeof`-cascade (`v` verbatim for strings, `v.toString()` for numbers and
booleans, `JSON.stringify(v)` otherwise) coincide with this function. -/
def jsToString : JsValue → String
  | .str s => s
  | .num n => intToDecimal n
  | .bool b => if b then "true" else "false"

/-- The scheme-stripping step of `createBridgeCompatiblePaths` for string
arguments: `argValue.includes('://') ? (parts.length === 2 ? parts[1] :
argValue) : argValue`, written as one match on the split (a one-part split is
exactly the no-inclusion case). -/
def stripScheme (s : String) : String :=
  match jsSplitUri s with
  | [_, p2] => p2
  | _ => s

/-- The per-value encoding of the generator's 1- and 2-argument branches:
stringify, strip the scheme when the value is a string, then substitute the
special characters. -/
def genArgStr (v : JsValue) : String :=
  let argStr :=
    match v with
    | .str s => stripScheme s
    | _ => jsToString v
  substSpecial argStr

/-- `Array.prototype.sort()` (default string comparison) applied to a
two-element array, returning the pair in ascending order. Lean's `String`
order is by code points, which agrees with the JavaScript UTF-16 code-unit
comparison on strings of basic-plane characters. -/
def sortPairAsc (a b : String) : String × String :=
  if a ≤ b then (a, b) else (b, a)

/-- Call arguments: a JavaScript object in insertion order with distinct
string keys. `Object.keys`/`Object.values`/`Object.entries` enumerate it in
list order (modelled for non-integer-index keys, whose enumeration order in
JavaScript is insertion order). -/
abbrev CallArgs := List (String × JsValue)

/-- `createBridgeCompatiblePaths` from `src/index.js`, lines 308-340: the
relative path (from the output directory) of the file the generator writes
for a sample tool call, where `toolDir` in the source is
`<outputDir>/tools/<toolName>`.
* 0 arguments: the file `<toolName>.json` is written next to the tool
  directory (in `path.dirname(toolDir)`, i.e. `tools/`).
* 1 argument: the value is stringified, scheme-stripped, substituted, and
  used as `<toolDir>/<argStr>.json`.
* 2 arguments: both values are encoded the same way, sorted ascending, and
  nested as `<toolDir>/<first>/<second>.json`.
* 3 or more arguments: the source function has no branch and returns after
  writing nothing, hence `none`. -/
def createBridgeCompatiblePaths (toolName : String) (params : CallArgs) : Option String :=
  match params with
  | [] => some ("tools/" ++ toolName ++ ".json")
  | [(_, v)] => some ("tools/" ++ toolName ++ "/" ++ genArgStr v ++ ".json")
  | [(_, v1), (_, v2)] =>
    some ("tools/" ++ toolName ++ "/" ++ (sortPairAsc (genArgStr v1) (genArgStr v2)).1 ++
      "/" ++ (sortPairAsc (genArgStr v1) (genArgStr v2)).2 ++ ".json")
  | _ => none

/-- UTF-8 encoding of one code point (what `Buffer.from(s)` does per
character), bytes as naturals below 256. -/
def utf8Bytes (c : Char) : List Nat :=
  let n := c.toNat
  if n < 0x80 then [n]
  else if n < 0x800 then [0xC0 + n / 0x40, 0x80 + n % 0x40]
  else if n < 0x10000 then
    [0xE0 + n / 0x1000, 0x80 + n / 0x40 % 0x40, 0x80 + n % 0x40]
  else
    [0xF0 + n / 0x40000, 0x80 + n / 0x1000 % 0x40, 0x80 + n / 0x40 % 0x40,
      0x80 + n % 0x40]

/-- The UTF-8 bytes of a string (`Buffer.from(s)`). -/
def strBytes (s : String) : List Nat :=
  s.data.flatMap utf8Bytes

/-- The base64 alphabet in index order. -/
def b64Alphabet : List Char :=
  "ABCDEFGHIJKLMNOPQRSTUVWXYZabcdefghijklmnopqrstuvwxyz0123456789+/".data

/-- The base64 digit for a 6-bit group. -/
def b64Char (n : Nat) : Char :=
  b64Alphabet.getD n 'A'

/-- Standard base64 encoding with `=` padding
(`Buffer.prototype.toString('base64')`), three input bytes per four output
characters. -/
def b64Encode : List Nat → List Char
  | [] => []
  | [b1] => [b64Char (b1 / 4), b64Char (b1 % 4 * 16), '=', '=']
  | [b1, b2] =>
    [b64Char (b1 / 4), b64Char (b1 % 4 * 16 + b2 / 16), b64Char (b2 % 16 * 4), '=']
  | b1 :: b2 :: b3 :: rest =>
    b64Char (b1 / 4) :: b64Char (b1 % 4 * 16 + b2 / 16) ::
      b64Char (b2 % 16 * 4 + b3 / 64) :: b64Char (b3 % 64) :: b64Encode rest

/-- `Buffer.from(s).toString('base64').replace(/[/+]/g, '_').replace(/=/g, '')`:
base64, then `/` and `+` mapped to `_`, then all padding dropped. -/
def b64UrlNoPad (s : String) : String :=
  String.mk
    (((b64Encode (strBytes s)).map fun c => if c = '/' ∨ c = '+' then '_' else c).filter
      fun c => c ≠ '=')

/-- Insertion step for sorting entries by key. -/
def insertByName (kv : String × JsValue) : List (String × JsValue) → List (String × JsValue)
  | [] => [kv]
  | kv2 :: rest => if kv.1 ≤ kv2.1 then kv :: kv2 :: rest else kv2 :: insertByName kv rest

/-- `Object.entries(args).sort(([a],[b]) => a.localeCompare(b))`: stable sort
of the entries by key. The source compares keys with `localeCompare`, whose
collation is host defined (ECMA-402); on the lowercase-ASCII alphanumeric
names of this code base the CLDR root collation coincides with the code-point
order used here. -/
def sortByName : List (String × JsValue) → List (String × JsValue)
  | [] => []
  | kv :: rest => insertByName kv (sortByName rest)

/-- The canonical argument string of the three-plus-argument rule: entries
sorted by name, each rendered `name=value`, joined with `&`. -/
def canonicalArgString (args : CallArgs) : String :=
  String.intercalate "&" ((sortByName args).map fun kv => kv.1 ++ "=" ++ jsToString kv.2)

/-- Reference for reasoning about `jsSplitUri`: joining parts back with the
`://` separator. -/
def joinUriParts : List (List Char) → List Char
  | [] => []
  | [x] => x
  | x :: xs => x ++ ':' :: '/' :: '/' :: joinUriParts xs

/-- `simulateBridgeToolToPath` from `tests/bridge-test.js`, lines 28-75: the
relative path the bridge tester resolves a tool call to.
* 0 arguments: `tools/<toolName>.json`.
* 1 argument: the stringified value verbatim (no scheme stripping, no
  character substitution in this source function).
* 2 arguments: both stringified values, sorted, nested.
* 3 or more: entries sorted by name, joined `name=value` with `&`,
  base64-encoded with `/`,`+` ↦ `_` and `=` dropped. -/
def simulateBridgeToolToPath (toolName : String) (args : CallArgs) : String :=
  let toolDir := "tools/" ++ toolName
  match args with
  | [] => toolDir ++ ".json"
  | [(_, v)] => toolDir ++ "/" ++ jsToString v ++ ".json"
  | [(_, v1), (_, v2)] =>
    let sorted := sortPairAsc (jsToString v1) (jsToString v2)
    toolDir ++ "/" ++ sorted.1 ++ "/" ++ sorted.2 ++ ".json"
  | args3 => toolDir ++ "/" ++ b64UrlNoPad (canonicalArgString args3) ++ ".json"

/-- The ECMAScript whitespace class (WhiteSpace ∪ LineTerminator) trimmed by
`String.prototype.trim`/`trimStart` and matched by the regex class `\s`. -/
def jsWhitespaceChar (c : Char) : Bool :=
  c.toNat == 32 || c.toNat == 9 || c.toNat == 10 || c.toNat == 11 || c.toNat == 12 ||
    c.toNat == 13 || c.toNat == 0xA0 || c.toNat == 0x1680 ||
    (0x2000 ≤ c.toNat && c.toNat ≤ 0x200A) || c.toNat == 0x2028 || c.toNat == 0x2029 ||
    c.toNat == 0x202F || c.toNat == 0x205F || c.toNat == 0x3000 || c.toNat == 0xFEFF

def trimLeftChars (l : List Char) : List Char :=
  l.dropWhile jsWhitespaceChar

def trimRightChars (l : List Char) : List Char :=
  (l.reverse.dropWhile jsWhitespaceChar).reverse

/-- `s.trim()`. -/
def jsTrim (s : String) : String :=
  String.mk (trimRightChars (trimLeftChars s.data))

/-- `line.length - line.trimStart().length`: the number of leading
whitespace characters. -/
def indentOf (line : String) : Nat :=
  line.data.length - (trimLeftChars line.data).length

/-- `line.trim() === ''`. -/
def isBlank (line : String) : Bool :=
  jsTrim line == ""

/-- Splitter for `content.split('\n')`. -/
def splitNlAux : List Char → List Char → List (List Char)
  | [], acc => [acc.reverse]
  | '\n' :: r, acc => acc.reverse :: splitNlAux r []
  | c :: r, acc => splitNlAux r (c :: acc)

/-- `content.split('\n')`. -/
def splitNl (s : String) : List String :=
  (splitNlAux s.data []).map String.mk

def strStartsWith (s pat : String) : Bool :=
  pat.data.isPrefixOf s.data

def strEndsWith (s pat : String) : Bool :=
  pat.data.reverse.isPrefixOf s.data.reverse

def strContainsChar (s : String) (c : Char) : Bool :=
  s.data.contains c

def beforeColonAux : List Char → List Char
  | [] => []
  | c :: r => if c = ':' then [] else c :: beforeColonAux r

def afterColonAux : List Char → List Char
  | [] => []
  | c :: r => if c = ':' then r else afterColonAux r

/-- `line.substring(0, line.indexOf(':'))`: the text before the first colon
(empty when there is no colon, since `substring(0, -1)` clamps to empty). -/
def jsBeforeFirstColon (s : String) : String :=
  if strContainsChar s ':' then String.mk (beforeColonAux s.data) else ""

/-- `line.substring(line.indexOf(':') + 1)`: the text after the first colon
(the whole line when there is no colon, since `substring(0)` is the
identity). -/
def jsAfterFirstColon (s : String) : String :=
  if strContainsChar s ':' then String.mk (afterColonAux s.data) else s

/-- `s.substring(n)` for a non-negative start index. -/
def jsSubstringFrom (s : String) (n : Nat) : String :=
  String.mk (s.data.drop n)

/-- `values.join(sep)`. -/
def joinWith (sep : String) : List String → String
  | [] => ""
  | [x] => x
  | x :: xs => x ++ sep ++ joinWith sep xs

/-- `value.slice(1, -1)`. -/
def jsSlice1Neg1 (s : String) : String :=
  String.mk ((s.data.drop 1).dropLast)

/-- A scalar metadata value of the supported subset (string, boolean,
number). The source stores the IEEE double `Number(value)`; numbers are
modelled as exact rationals of the finite decimal literals the model
accepts. -/
inductive YScalar where
  | s (v : String)
  | b (v : Bool)
  | n (v : Rat)
deriving DecidableEq

/-- A metadata value: a scalar, or an array of scalars (from a single-line
JSON array or from a block array; the spec's data model restricts arrays to
scalar elements). -/
inductive YVal where
  | scalar (v : YScalar)
  | arr (elems : List YScalar)
deriving DecidableEq

/-- Numeric value of a digit string, most significant first. -/
def digitsVal (l : List Char) : Nat :=
  l.foldl (fun a c => a * 10 + (c.toNat - 48)) 0

/-- The rational `sgn * ip.fp * 10^e` denoted by sign, integer digits,
fraction digits and exponent. -/
def ratOfParts (sgn : Int) (ip fp : List Char) (e : Int) : Rat :=
  let mant : Int := sgn * (digitsVal ip * 10 ^ fp.length + digitsVal fp)
  let etot : Int := e - fp.length
  if 0 ≤ etot then ((mant * 10 ^ etot.toNat : Int) : Rat)
  else (mant : Rat) / ((10 ^ (-etot).toNat : Int) : Rat)

/-- Optional leading sign of a JavaScript numeric literal. -/
def jsNumSign : List Char → Int × List Char
  | '+' :: r => (1, r)
  | '-' :: r => (-1, r)
  | r => (1, r)

/-- Exponent-and-end step of `jsNumberOpt`. -/
def jsNumExp (sgn : Int) (ip fp : List Char) (r : List Char) : Option Rat :=
  match jsNumSign r with
  | (esgn, r2) =>
    match r2.takeWhile Char.isDigit, r2.dropWhile Char.isDigit with
    | ed, r3 =>
      if ed = [] ∨ r3 ≠ [] then none
      else some (ratOfParts sgn ip fp (esgn * digitsVal ed))

/-- `Number(value)` on an already-trimmed string, for the finite decimal
grammar `[+-]? (digits [. digits*] | . digits) [(e|E) [+-]? digits]`,
returned as an exact rational (`none` models `NaN`). The host additionally
accepts hexadecimal/octal/binary literals and `Infinity`, which are outside
the modelled subset and here fall back to the string branch of the caller. -/
def jsNumberOpt (s : String) : Option Rat :=
  match jsNumSign s.data with
  | (sgn, l1) =>
    match l1.takeWhile Char.isDigit, l1.dropWhile Char.isDigit with
    | ip, l2 =>
      match (match l2 with
        | '.' :: r => (r.takeWhile Char.isDigit, r.dropWhile Char.isDigit)
        | r => (([] : List Char), r)) with
      | (fp, l3) =>
        if ip = [] ∧ fp = [] then none
        else
          match l3 with
          | [] => some (ratOfParts sgn ip fp 0)
          | 'e' :: r => jsNumExp sgn ip fp r
          | 'E' :: r => jsNumExp sgn ip fp r
          | _ => none

/-- JSON whitespace. -/
def jsonWsChar (c : Char) : Bool :=
  c == ' ' || c == '\t' || c == '\n' || c == '\r'

def skipJsonWs (l : List Char) : List Char :=
  l.dropWhile jsonWsChar

/-- Value of one hexadecimal digit. -/
def hexVal (c : Char) : Option Nat :=
  if c.isDigit then some (c.toNat - 48)
  else if 'a' ≤ c ∧ c ≤ 'f' then some (c.toNat - 87)
  else if 'A' ≤ c ∧ c ≤ 'F' then some (c.toNat - 55)
  else none

/-- Body of a JSON string after the opening quote, with the standard
escapes; surrogate-pair `\uXXXX` escapes are outside the model. Returns the
decoded characters and the remainder after the closing quote. -/
def parseJsonStringAux : Nat → List Char → List Char → Option (List Char × List Char)
  | 0, _, _ => none
  | _ + 1, [], _ => none
  | _ + 1, '"' :: r, acc => some (acc.reverse, r)
  | fuel + 1, '\\' :: esc :: r, acc =>
    match esc with
    | '"' => parseJsonStringAux fuel r ('"' :: acc)
    | '\\' => parseJsonStringAux fuel r ('\\' :: acc)
    | '/' => parseJsonStringAux fuel r ('/' :: acc)
    | 'b' => parseJsonStringAux fuel r (Char.ofNat 8 :: acc)
    | 'f' => parseJsonStringAux fuel r (Char.ofNat 12 :: acc)
    | 'n' => parseJsonStringAux fuel r ('\n' :: acc)
    | 'r' => parseJsonStringAux fuel r (Char.ofNat 13 :: acc)
    | 't' => parseJsonStringAux fuel r ('\t' :: acc)
    | 'u' =>
      match r with
      | h1 :: h2 :: h3 :: h4 :: r2 =>
        match hexVal h1, hexVal h2, hexVal h3, hexVal h4 with
        | some v1, some v2, some v3, some v4 =>
          parseJsonStringAux fuel r2 (Char.ofNat (((v1 * 16 + v2) * 16 + v3) * 16 + v4) :: acc)
        | _, _, _, _ => none
      | _ => none
    | _ => none
  | fuel + 1, c :: r, acc =>
    if c.toNat < 32 then none else parseJsonStringAux fuel r (c :: acc)

/-- One strict-JSON number at the head of the input. -/
def parseJsonNumber (l : List Char) : Option (Rat × List Char) :=
  let sgn : Int := if l.headD ' ' = '-' then -1 else 1
  let l1 := if l.headD ' ' = '-' then l.tail else l
  let ip := l1.takeWhile Char.isDigit
  let l2 := l1.dropWhile Char.isDigit
  if ip = [] then none
  else if 2 ≤ ip.length ∧ ip.headD '0' = '0' then none
  else
    let fp := if l2.headD ' ' = '.' then l2.tail.takeWhile Char.isDigit else []
    let l3 := if l2.headD ' ' = '.' then l2.tail.dropWhile Char.isDigit else l2
    if l2.headD ' ' = '.' ∧ fp = [] then none
    else if l3.headD ' ' = 'e' ∨ l3.headD ' ' = 'E' then
      let r := l3.tail
      let esgn : Int := if r.headD ' ' = '-' then -1 else 1
      let r2 := if r.headD ' ' = '-' ∨ r.headD ' ' = '+' then r.tail else r
      let ed := r2.takeWhile Char.isDigit
      let r3 := r2.dropWhile Char.isDigit
      if ed = [] then none
      else some (ratOfParts sgn ip fp (esgn * digitsVal ed), r3)
    else some (ratOfParts sgn ip fp 0, l3)

/-- One scalar JSON value at the head of the input. -/
def parseJsonScalar (l : List Char) : Option (YScalar × List Char) :=
  match l with
  | '"' :: r =>
    match parseJsonStringAux (r.length + 1) r [] with
    | some g => some (.s (String.mk g.1), g.2)
    | none => none
  | 't' :: 'r' :: 'u' :: 'e' :: r => some (.b true, r)
  | 'f' :: 'a' :: 'l' :: 's' :: 'e' :: r => some (.b false, r)
  | _ =>
    match parseJsonNumber l with
    | some g => some (.n g.1, g.2)
    | none => none

/-- Comma-separated scalar elements up to the closing bracket. -/
def parseJsonArrElems : Nat → List Char → List YScalar → Option (List YScalar × List Char)
  | 0, _, _ => none
  | fuel + 1, l, acc =>
    match parseJsonScalar (skipJsonWs l) with
    | none => none
    | some g =>
      match skipJsonWs g.2 with
      | ',' :: r2 => parseJsonArrElems fuel r2 (g.1 :: acc)
      | ']' :: r2 => some ((g.1 :: acc).reverse, r2)
      | _ => none

/-- `JSON.parse(value)` for the supported subset: an array literal of scalar
JSON values. The host also accepts `null`, nested arrays/objects and
surrogate escapes; on those this model returns `none` (the caller then falls
through to the string branches, as it does on a host parse error). -/
def parseJsonScalarArray (s : String) : Option (List YScalar) :=
  match skipJsonWs s.data with
  | '[' :: r =>
    match skipJsonWs r with
    | ']' :: r2 => if skipJsonWs r2 = [] then some [] else none
    | _ =>
      match parseJsonArrElems (s.data.length + 1) r [] with
      | some g => if skipJsonWs g.2 = [] then some g.1 else none
      | none => none
  | _ => none

/-- The single-line value cascade of `parseYaml` (source lines 56-78): a
bracketed value is given to `JSON.parse`, and on failure falls through; then
quote unwrapping (verbatim inner text, no escape processing), `true`/`false`,
the `Number` test guarded by `value !== ''`, and finally the raw string. -/
def parseScalar (value : String) : YVal :=
  if strStartsWith value "[" ∧ strEndsWith value "]" ∧ (parseJsonScalarArray value).isSome then
    .arr ((parseJsonScalarArray value).getD [])
  else if (strStartsWith value "\"" ∧ strEndsWith value "\"") ∨
      (strStartsWith value "'" ∧ strEndsWith value "'") then
    .scalar (.s (jsSlice1Neg1 value))
  else if value = "true" then .scalar (.b true)
  else if value = "false" then .scalar (.b false)
  else if (jsNumberOpt value).isSome ∧ value ≠ "" then
    .scalar (.n ((jsNumberOpt value).getD 0))
  else .scalar (.s value)

/-- The base-indent scan of `parseMultilineValue` (source lines 85-92): the
indentation of the first non-blank line, `0` if all are blank. -/
def baseIndentOf : List String → Nat
  | [] => 0
  | l :: ls => if isBlank l then baseIndentOf ls else indentOf l

/-- The literal-block (`|`) loop of `parseMultilineValue` (source lines
95-109): a blank line contributes an empty string unconditionally; a
non-blank line with indentation below the base stops the loop and stays
unconsumed (the source's `i--` before `break`); any other line contributes
`line.substring(baseIndent)`. Returns the collected lines and the unconsumed
suffix. -/
def literalCollect (base : Nat) : List String → List String × List String
  | [] => ([], [])
  | l :: ls =>
    if isBlank l then
      ("" :: (literalCollect base ls).1, (literalCollect base ls).2)
    else if indentOf l < base then ([], l :: ls)
    else
      (jsSubstringFrom l base :: (literalCollect base ls).1, (literalCollect base ls).2)

/-- The folded-block (`>`) loop (source lines 111-123): blank lines are
skipped entirely, a dedented non-blank line stops unconsumed, other lines
contribute their trimmed text. -/
def foldedCollect (base : Nat) : List String → List String × List String
  | [] => ([], [])
  | l :: ls =>
    if isBlank l then foldedCollect base ls
    else if indentOf l < base then ([], l :: ls)
    else (jsTrim l :: (foldedCollect base ls).1, (foldedCollect base ls).2)

/-- The block-array loop (source lines 125-145): blank lines are skipped; a
dedented non-blank line stops unconsumed; a `- ` line contributes its
remainder; otherwise the line continues the previous element (the source's
guard `indent >= baseIndent` is implied by the earlier dedent test), and with
no previous element the line stops unconsumed. -/
def arrayCollect (base : Nat) (acc : List String) : List String → List String × List String
  | [] => (acc.reverse, [])
  | l :: ls =>
    if isBlank l then arrayCollect base acc ls
    else if indentOf l < base then (acc.reverse, l :: ls)
    else if strStartsWith (jsTrim l) "- " then
      arrayCollect base (jsSubstringFrom (jsTrim l) 2 :: acc) ls
    else
      match acc with
      | a :: acctail => arrayCollect base ((a ++ " " ++ jsTrim l) :: acctail) ls
      | [] => ([], l :: ls)

/-- `parseMultilineValue` from `src/index.js` lines 82-147: re-extracts the
value marker from the raw key line, determines the base indent from the
following lines, and runs the matching collector. Returns the value together
with the unconsumed suffix of the following lines (the source returns
`lastIndex`, the index of the last consumed line). -/
def parseMultilineValue (startLine : String) (rest : List String) : YVal × List String :=
  if jsTrim (jsAfterFirstColon startLine) = "|" then
    (.scalar (.s (joinWith "\n" (literalCollect (baseIndentOf rest) rest).1)),
      (literalCollect (baseIndentOf rest) rest).2)
  else if jsTrim (jsAfterFirstColon startLine) = ">" then
    (.scalar (.s (joinWith " " (foldedCollect (baseIndentOf rest) rest).1)),
      (foldedCollect (baseIndentOf rest) rest).2)
  else
    (.arr ((arrayCollect (baseIndentOf rest) [] rest).1.map YScalar.s),
      (arrayCollect (baseIndentOf rest) [] rest).2)

/-- `result[key] = v` on a JavaScript object: replace the value in place when
the key is present, append a new entry otherwise. -/
def jsAssign (m : List (String × YVal)) (k : String) (v : YVal) : List (String × YVal) :=
  if m.any (fun kv => kv.1 == k) then
    m.map (fun kv => if kv.1 = k then (k, v) else kv)
  else m ++ [(k, v)]

/-- The line loop of `parseYaml` (source lines 38-81), recorded as the
sequence of `result[key] = value` assignments it performs, in order: a line
that trims to empty or to a `#` comment is skipped; a line without `:` is
skipped; a trimmed value of `''`, `|` or `>` delegates to
`parseMultilineValue` (on the raw line) and continues after the consumed
lines; otherwise the single-line cascade gives the value. The loop never
reads `result`, so the object it builds is exactly the fold of `jsAssign`
over this sequence (`parseYamlMap` below). -/
def yamlAssignSeq : List String → List (String × YVal)
  | [] => []
  | rawLine :: rest =>
    if isBlank rawLine ∨ strStartsWith (jsTrim rawLine) "#" then yamlAssignSeq rest
    else if ¬ strContainsChar (jsTrim rawLine) ':' then yamlAssignSeq rest
    else if jsTrim (jsAfterFirstColon (jsTrim rawLine)) = "" ∨
        jsTrim (jsAfterFirstColon (jsTrim rawLine)) = "|" ∨
        jsTrim (jsAfterFirstColon (jsTrim rawLine)) = ">" then
      (jsTrim (jsBeforeFirstColon (jsTrim rawLine)), (parseMultilineValue rawLine rest).1) ::
        yamlAssignSeq (parseMultilineValue rawLine rest).2
    else
      (jsTrim (jsBeforeFirstColon (jsTrim rawLine)),
        parseScalar (jsTrim (jsAfterFirstColon (jsTrim rawLine)))) :: yamlAssignSeq rest
termination_by ls => ls.length
decreasing_by
  · simp only [List.length_cons]; omega
  · simp only [List.length_cons]; omega
  · have hlit : ∀ (base : Nat) (ls : List String),
        (literalCollect base ls).2.length ≤ ls.length := by
      intro base ls
      induction ls with
      | nil => simp [literalCollect]
      | cons l ls2 ih =>
        simp only [literalCollect]
        split
        · exact le_trans ih (Nat.le_succ _)
        · split
          · simp
          · exact le_trans ih (Nat.le_succ _)
    have hfold : ∀ (base : Nat) (ls : List String),
        (foldedCollect base ls).2.length ≤ ls.length := by
      intro base ls
      induction ls with
      | nil => simp [foldedCollect]
      | cons l ls2 ih =>
        simp only [foldedCollect]
        split
        · exact le_trans ih (Nat.le_succ _)
        · split
          · simp
          · exact le_trans ih (Nat.le_succ _)
    have harr : ∀ (base : Nat) (ls : List String) (acc : List String),
        (arrayCollect base acc ls).2.length ≤ ls.length := by
      intro base ls
      induction ls with
      | nil => intro _; simp [arrayCollect]
      | cons l ls2 ih =>
        intro acc
        simp only [arrayCollect]
        split
        · exact le_trans (ih acc) (Nat.le_succ _)
        · split
          · simp
          · split
            · exact le_trans (ih _) (Nat.le_succ _)
            · split
              · exact le_trans (ih _) (Nat.le_succ _)
              · simp
    have hmv : ∀ (sl : String) (ls : List String),
        (parseMultilineValue sl ls).2.length ≤ ls.length := by
      intro sl ls
      unfold parseMultilineValue
      split
      · exact hlit _ _
      · split
        · exact hfold _ _
        · exact harr _ _ _
    simp only [List.length_cons]
    exact Nat.lt_succ_of_le (hmv _ _)
  · simp only [List.length_cons]; omega

/-- The object built by the `parseYaml` loop: the fold of the JavaScript
assignment `result[key] = value` over the assignment sequence, starting from
the empty object. -/
def parseYamlMap (assigns : List (String × YVal)) : List (String × YVal) :=
  assigns.foldl (fun m kv => jsAssign m kv.1 kv.2) []

/-- `parseYaml` from `src/index.js` lines 38-81: split on newlines, run the
line loop. -/
def parseYaml (yamlContent : String) : List (String × YVal) :=
  parseYamlMap (yamlAssignSeq (splitNl yamlContent))

/-- Lookup of a key in the built object. -/
def lookupKey (k : String) (m : List (String × YVal)) : Option YVal :=
  (m.find? (fun kv => kv.1 == k)).map (fun kv => kv.2)

/-- The value of the last assignment to `k` in an assignment sequence. -/
def lastAssignedValue (k : String) (seq : List (String × YVal)) : Option YVal :=
  (seq.reverse.find? (fun kv => kv.1 == k)).map (fun kv => kv.2)

/-- Candidate remainders for matching the regex fragment `\s*\n` at the head
of `cs`, in the backtracking order of the greedy `\s*` followed by a literal
newline: one candidate per newline inside the leading whitespace run, later
newlines first; each candidate is the text after that newline. -/
def wsNlSplits (cs : List Char) : List (List Char) :=
  (((List.range (cs.takeWhile jsWhitespaceChar).length).filter
    fun t => cs.getD t ' ' = '\n').reverse).map fun t => cs.drop (t + 1)

/-- Matcher for the regex tail `([\s\S]*?)\n<fence>\s*\n([\s\S]*)$` with the
lazily-growing first group accumulated (reversed) in `acc`: scan forward; at
each position try the literal newline, the fence, then the greedy `\s*\n`
(whose first candidate, if any, always completes the match because the final
group matches everything); the first succeeding position gives the shortest
first group, as a lazy quantifier requires. -/
def matchTail (fence : List Char) (acc : List Char) : List Char → Option (List Char × List Char)
  | [] => none
  | c :: rest =>
    if c = '\n' ∧ fence.isPrefixOf rest then
      match wsNlSplits (rest.drop fence.length) with
      | s2 :: _ => some (acc.reverse, s2)
      | [] => matchTail fence (c :: acc) rest
    else matchTail fence (c :: acc) rest

/-- `content.match(/^---\s*\n([\s\S]*?)\n---\s*\n([\s\S]*)$/)` from
`parseFrontmatter`: after the literal `---`, try each start given by the
greedy `\s*\n` (later newlines first), and for each run the lazy middle
matcher; the first start with a completing middle yields the two groups.
Returns `(frontmatterText, body)` or `none`. -/
def yamlFmMatch (content : String) : Option (String × String) :=
  if ['-', '-', '-'].isPrefixOf content.data then
    ((wsNlSplits (content.data.drop 3)).findSome?
      fun s => matchTail ['-', '-', '-'] [] s).map
      fun g => (String.mk g.1, String.mk g.2)
  else none

/-- `content.match(/^{\s*\n([\s\S]*?)\n}\s*\n([\s\S]*)$/)` from
`parseFrontmatter`, same structure with brace fences. -/
def jsonFmMatch (content : String) : Option (String × String) :=
  match content.data with
  | '{' :: after =>
    ((wsNlSplits after).findSome? fun s => matchTail ['}'] [] s).map
      fun g => (String.mk g.1, String.mk g.2)
  | _ => none

/-- The result of `parseFrontmatter`: the metadata mapping and the remaining
body. -/
structure ParsedMatter where
  data : List (String × YVal)
  content : String
deriving DecidableEq

/-- `parseFrontmatter` from `src/index.js` lines 22-37: try the fenced
(YAML-style) pattern, then the brace (JSON-style) pattern whose group is
re-wrapped in braces and given to `JSON.parse`; when neither matches, or the
JSON parse throws (modelled by `jsonParse` returning `none`), return the
empty mapping with the full original text — the function is total and never
raises. `JSON.parse` is a host primitive, so it is passed in explicitly as a
function returning the parsed object as a mapping, `none` on a parse
error. -/
def parseFrontmatter (jsonParse : String → Option (List (String × YVal)))
    (content : String) : ParsedMatter :=
  match yamlFmMatch content with
  | some g => ⟨parseYaml g.1, g.2⟩
  | none =>
    match jsonFmMatch content with
    | some g =>
      match jsonParse ("\x7b" ++ g.1 ++ "\x7d") with
      | some d => ⟨d, g.2⟩
      | none => ⟨[], content⟩
    | none => ⟨[], content⟩

/-- Wellformedness of a metadata key as quantified over in the round-trip
statements: nonempty, and containing no whitespace, colon or hash
characters. -/
def plainKey (k : String) : Prop :=
  k ≠ "" ∧ ∀ c ∈ k.data, jsWhitespaceChar c = false ∧ c ≠ ':' ∧ c ≠ '#'

instance (k : String) : Decidable (plainKey k) := by
  unfold plainKey
  infer_instance

theorem mk_data (s : String) : String.mk s.data = s := rfl

theorem data_append (a b : String) : (a ++ b).data = a.data ++ b.data := rfl

theorem data_eq_nil_iff (s : String) : s.data = [] ↔ s = "" := by
  constructor
  · intro h
    exact String.ext h
  · intro h
    rw [h]

theorem mk_eq_empty_iff (l : List Char) : String.mk l = "" ↔ l = [] := by
  constructor
  · intro h
    have h2 : (String.mk l).data = ("" : String).data := by rw [h]
    exact h2
  · intro h
    rw [h]

theorem splitUriAux_ne_nil (l acc : List Char) : splitUriAux l acc ≠ [] := by
  induction l, acc using splitUriAux.induct with
  | case1 rest acc ih => simp [splitUriAux]
  | case2 c rest acc h ih =>
    rw [splitUriAux.eq_2]
    · exact ih
    · exact h
  | case3 acc => simp [splitUriAux]

theorem joinUriParts_cons (x : List Char) (xs : List (List Char)) (h : xs ≠ []) :
    joinUriParts (x :: xs) = x ++ ':' :: '/' :: '/' :: joinUriParts xs := by
  cases xs with
  | nil => exact absurd rfl h
  | cons y ys => rfl

theorem splitUriAux_join (l acc : List Char) :
    joinUriParts (splitUriAux l acc) = acc.reverse ++ l := by
  induction l, acc using splitUriAux.induct with
  | case1 rest acc ih =>
    rw [splitUriAux, joinUriParts_cons _ _ (splitUriAux_ne_nil _ _), ih]
    simp
  | case2 c rest acc h ih =>
    rw [splitUriAux.eq_2, ih]
    · simp
    · exact h
  | case3 acc =>
    simp [splitUriAux, joinUriParts]

theorem splitUriAux_no_colon (l acc : List Char) :
    (∀ c ∈ l, c ≠ ':') → splitUriAux l acc = [acc.reverse ++ l] := by
  induction l, acc using splitUriAux.induct with
  | case1 rest acc ih =>
    intro h
    exact absurd rfl (h ':' (by simp))
  | case2 c rest acc hne ih =>
    intro h
    rw [splitUriAux.eq_2]
    · rw [ih (fun x hx => h x (by simp [hx]))]
      simp
    · exact hne
  | case3 acc =>
    intro h
    simp [splitUriAux]

theorem stripScheme_eq_self (s : String) (h : ∀ c ∈ s.data, c ≠ ':') :
    stripScheme s = s := by
  unfold stripScheme jsSplitUri
  rw [splitUriAux_no_colon s.data [] h]
  simp [mk_data]

theorem decDigit_ne_colon (d : Nat) : decDigit d ≠ ':' := by
  unfold decDigit
  split <;> decide

theorem data_mk (l : List Char) : (String.mk l).data = l := rfl

theorem natDecRepAux_chars (n : Nat) (acc : List Char) :
    ∀ c ∈ natDecRepAux n acc, c ∈ acc ∨ ∃ d, c = decDigit d := by
  induction n, acc using natDecRepAux.induct with
  | case1 n acc h =>
    intro c hc
    rw [natDecRepAux, if_pos h, List.mem_cons] at hc
    rcases hc with hc | hc
    · exact Or.inr ⟨n % 10, hc⟩
    · exact Or.inl hc
  | case2 n acc h ih =>
    intro c hc
    rw [natDecRepAux, if_neg h] at hc
    rcases ih c hc with hc2 | hc2
    · rw [List.mem_cons] at hc2
      rcases hc2 with hc2 | hc2
      · exact Or.inr ⟨n % 10, hc2⟩
      · exact Or.inl hc2
    · exact Or.inr hc2

theorem intToDecimal_no_colon (i : Int) : ∀ c ∈ (intToDecimal i).data, c ≠ ':' := by
  intro c hc
  unfold intToDecimal at hc
  split at hc <;> rw [data_mk] at hc
  · rw [List.mem_cons] at hc
    rcases hc with hc | hc
    · rw [hc]; decide
    · rcases natDecRepAux_chars _ _ c hc with h2 | ⟨d, hd⟩
      · simp at h2
      · rw [hd]; exact decDigit_ne_colon d
  · rcases natDecRepAux_chars _ _ c hc with h2 | ⟨d, hd⟩
    · simp at h2
    · rw [hd]; exact decDigit_ne_colon d

theorem genArgStr_eq (v : JsValue) :
    genArgStr v = substSpecial (stripScheme (jsToString v)) := by
  cases v with
  | str s => rfl
  | num n =>
    unfold genArgStr jsToString
    rw [stripScheme_eq_self _ (intToDecimal_no_colon n)]
  | bool b =>
    cases b <;> rfl

theorem sortPairAsc_comm (x y : String) : sortPairAsc x y = sortPairAsc y x := by
  unfold sortPairAsc
  by_cases hxy : x ≤ y <;> by_cases hyx : y ≤ x <;> simp [hxy, hyx]
  · exact ⟨le_antisymm hxy hyx, le_antisymm hyx hxy⟩
  · exact absurd (le_total x y) (by simp [hxy, hyx])

theorem sortPairAsc_le (x y : String) : (sortPairAsc x y).1 ≤ (sortPairAsc x y).2 := by
  unfold sortPairAsc
  split
  · assumption
  · exact le_of_not_le (by assumption)

theorem sortPairAsc_cases (x y : String) :
    sortPairAsc x y = (x, y) ∨ sortPairAsc x y = (y, x) := by
  unfold sortPairAsc
  split
  · exact Or.inl rfl
  · exact Or.inr rfl

theorem b64Char_mem (n : Nat) : b64Char n ∈ b64Alphabet := by
  unfold b64Char List.getD
  cases hg : b64Alphabet.get? n with
  | none => simp [Option.getD]; decide
  | some c =>
    simp only [Option.getD]
    exact List.get?_mem hg

theorem b64Encode_chars (bs : List Nat) :
    ∀ c ∈ b64Encode bs, c ∈ b64Alphabet ∨ c = '=' := by
  induction bs using b64Encode.induct with
  | case1 => simp [b64Encode]
  | case2 b1 =>
    intro c hc
    simp only [b64Encode, List.mem_cons, List.not_mem_nil, or_false] at hc
    rcases hc with h | h | h | h
    · exact Or.inl (h ▸ b64Char_mem _)
    · exact Or.inl (h ▸ b64Char_mem _)
    · exact Or.inr h
    · exact Or.inr h
  | case3 b1 b2 =>
    intro c hc
    simp only [b64Encode, List.mem_cons, List.not_mem_nil, or_false] at hc
    rcases hc with h | h | h | h
    · exact Or.inl (h ▸ b64Char_mem _)
    · exact Or.inl (h ▸ b64Char_mem _)
    · exact Or.inl (h ▸ b64Char_mem _)
    · exact Or.inr h
  | case4 b1 b2 b3 rest ih =>
    intro c hc
    simp only [b64Encode, List.mem_cons] at hc
    rcases hc with h | h | h | h | h
    · exact Or.inl (h ▸ b64Char_mem _)
    · exact Or.inl (h ▸ b64Char_mem _)
    · exact Or.inl (h ▸ b64Char_mem _)
    · exact Or.inl (h ▸ b64Char_mem _)
    · exact ih c h

theorem b64Alphabet_chars : ∀ c ∈ b64Alphabet, c.isAlphanum ∨ c = '+' ∨ c = '/' := by
  decide

theorem b64UrlNoPad_chars (s : String) :
    ∀ c ∈ (b64UrlNoPad s).data, (c.isAlphanum ∨ c = '_') ∧ c ≠ '=' := by
  intro c hc
  unfold b64UrlNoPad at hc
  simp only [String.mk] at hc
  rw [List.mem_filter] at hc
  obtain ⟨hmem, hne⟩ := hc
  rw [List.mem_map] at hmem
  obtain ⟨c0, hc0, hfc0⟩ := hmem
  refine ⟨?_, by simpa using hne⟩
  by_cases hsl : c0 = '/' ∨ c0 = '+'
  · rw [if_pos hsl] at hfc0
    exact Or.inr hfc0.symm
  · rw [if_neg hsl] at hfc0
    subst hfc0
    rcases b64Encode_chars _ c0 hc0 with h | h
    · rcases b64Alphabet_chars c0 h with h2 | h2 | h2
      · exact Or.inl h2
      · exact absurd (Or.inr h2) hsl
      · exact absurd (Or.inl h2) hsl
    · exact absurd h (by simpa using hne)

theorem insertByName_perm (kv : String × JsValue) (l : List (String × JsValue)) :
    List.Perm (insertByName kv l) (kv :: l) := by
  induction l with
  | nil => simp [insertByName]
  | cons kv2 rest ih =>
    unfold insertByName
    split
    · exact List.Perm.refl _
    · exact List.Perm.trans (List.Perm.cons kv2 ih) (List.Perm.swap kv kv2 rest)

theorem sortByName_perm (l : List (String × JsValue)) :
    List.Perm (sortByName l) l := by
  induction l with
  | nil => exact List.Perm.refl _
  | cons kv rest ih =>
    exact List.Perm.trans (insertByName_perm kv (sortByName rest)) (List.Perm.cons kv ih)

theorem insertByName_sorted (kv : String × JsValue) (l : List (String × JsValue))
    (h : List.Pairwise (fun x y : String × JsValue => x.1 ≤ y.1) l) :
    List.Pairwise (fun x y : String × JsValue => x.1 ≤ y.1) (insertByName kv l) := by
  induction l with
  | nil => simp [insertByName]
  | cons kv2 rest ih =>
    unfold insertByName
    rw [List.pairwise_cons] at h
    obtain ⟨hhead, htail⟩ := h
    split
    · refine List.Pairwise.cons ?_ (List.Pairwise.cons hhead htail)
      intro z hz
      rcases List.mem_cons.mp hz with hz | hz
      · subst hz; assumption
      · exact le_trans (by assumption) (hhead z hz)
    · refine List.Pairwise.cons ?_ (ih htail)
      intro z hz
      have := (insertByName_perm kv rest).mem_iff.mp hz
      rcases List.mem_cons.mp this with hz2 | hz2
      · subst hz2
        exact le_of_not_le (by assumption)
      · exact hhead z hz2

theorem sortByName_sorted (l : List (String × JsValue)) :
    List.Pairwise (fun x y : String × JsValue => x.1 ≤ y.1) (sortByName l) := by
  induction l with
  | nil => simp [sortByName]
  | cons kv rest ih => exact insertByName_sorted kv (sortByName rest) ih

/-- C1: the claim that the writer-side encoder (`createBridgeCompatiblePaths`)
and the resolver-side encoder (`simulateBridgeToolToPath`) compute the same
relative path for every `(operationName, args)` fails on the code: for the
one-argument call `get_resource {uri: "docs://x/y"}` the writer strips the
scheme and substitutes special characters while the resolver does neither, so
the two paths differ; and for a three-argument call the writer-side function
has no branch at all and writes no file. The repository's own `tests/test.js`
expects the writer's stripped path, so the resolver-side simulation is the
defective copy. -/
theorem encoder_divergence :
    createBridgeCompatiblePaths "get_resource" [("uri", JsValue.str "docs://x/y")] =
      some "tools/get_resource/x/y.json" ∧
    simulateBridgeToolToPath "get_resource" [("uri", JsValue.str "docs://x/y")] =
      "tools/get_resource/docs://x/y.json" ∧
    ("tools/get_resource/x/y.json" : String) ≠ "tools/get_resource/docs://x/y.json" ∧
    createBridgeCompatiblePaths "search"
      [("a", JsValue.str "x"), ("b", JsValue.str "y"), ("c", JsValue.str "z")] = none := by
  exact ⟨by decide, by decide, by decide, rfl⟩

/-- C2: for every one-argument call the writer-side encoder produces
`tools/<op>/<value>.json`, where `<value>` is the stringified argument with
the portion after `://` kept when the string splits on `://` into exactly two
parts, and the characters `*?"<>|` replaced by `_`; in particular
`get_resource {uri: "docs://x/y"}` is written to `tools/get_resource/x/y.json`. -/
theorem oneArg_path (toolName key : String) (v : JsValue) :
    createBridgeCompatiblePaths toolName [(key, v)] =
      some ("tools/" ++ toolName ++ "/" ++ substSpecial (stripScheme (jsToString v)) ++ ".json") ∧
    createBridgeCompatiblePaths "get_resource" [("uri", JsValue.str "docs://x/y")] =
      some "tools/get_resource/x/y.json" := by
  constructor
  · simp only [createBridgeCompatiblePaths]
    rw [genArgStr_eq]
  · decide

/-- C3: `encodeUriForFilename` keeps only the part after `://` when the
identifier splits on `://` into exactly two parts (witnessed by the
reconstruction `uri = p1 ++ "://" ++ p2`), otherwise uses the whole
identifier; the substitution maps every character of `*?"<>|` to `_` and is
the identity elsewhere, character for character (nothing added or removed). -/
theorem encodeUriForFilename_spec (uri : String) :
    (∀ p1 p2, jsSplitUri uri = [p1, p2] →
      uri.data = p1.data ++ ':' :: '/' :: '/' :: p2.data ∧
      encodeUriForFilename uri = substSpecial p2) ∧
    ((jsSplitUri uri).length ≠ 2 → encodeUriForFilename uri = substSpecial uri) ∧
    (∀ s : String, (substSpecial s).data = s.data.map substChar) ∧
    (∀ c, specialChar c = true → substChar c = '_') ∧
    (∀ c, specialChar c = false → substChar c = c) := by
  refine ⟨?_, ?_, fun s => rfl, fun c hc => by simp [substChar, hc],
    fun c hc => by simp [substChar, hc]⟩
  · intro p1 p2 hsplit
    constructor
    · have hjoin := splitUriAux_join uri.data []
      unfold jsSplitUri at hsplit
      match hparts : splitUriAux uri.data [] with
      | [] => exact absurd hparts (splitUriAux_ne_nil _ _)
      | [l1] => rw [hparts] at hsplit; simp at hsplit
      | [l1, l2] =>
        rw [hparts] at hsplit hjoin
        simp only [List.map_cons, List.map_nil, List.cons.injEq, and_true] at hsplit
        obtain ⟨h1, h2⟩ := hsplit
        simp only [joinUriParts, List.reverse_nil, List.nil_append] at hjoin
        rw [← hjoin, ← h1, ← h2]
      | l1 :: l2 :: l3 :: ls => rw [hparts] at hsplit; simp at hsplit
    · unfold encodeUriForFilename
      rw [hsplit]
  · intro hlen
    unfold encodeUriForFilename
    match hparts : jsSplitUri uri with
    | [] => rfl
    | [p1] => rfl
    | [p1, p2] => rw [hparts] at hlen; simp at hlen
    | p1 :: p2 :: p3 :: ps => rfl

/-- C3 witness: on `docs://a?b` the split has exactly two parts and the
encoder keeps and substitutes the second part. -/
theorem encodeUriForFilename_spec_witness :
    "docs://a?b".data = "docs".data ++ ':' :: '/' :: '/' :: "a?b".data ∧
    encodeUriForFilename "docs://a?b" = substSpecial "a?b" :=
  (encodeUriForFilename_spec "docs://a?b").1 "docs" "a?b" (by decide)

/-- C4: for two-entry argument mappings with the same multiset of values the
writer-side encoder produces the same path `tools/<op>/<first>/<second>.json`,
where the two encoded values appear sorted lexicographically ascending. -/
theorem twoArg_order_independent (t k1 k2 k3 k4 : String) (a b c d : JsValue)
    (h : (c, d) = (a, b) ∨ (c, d) = (b, a)) :
    createBridgeCompatiblePaths t [(k1, a), (k2, b)] =
      createBridgeCompatiblePaths t [(k3, c), (k4, d)] ∧
    ∃ fst2 snd2,
      ((fst2 = genArgStr a ∧ snd2 = genArgStr b) ∨ (fst2 = genArgStr b ∧ snd2 = genArgStr a)) ∧
      fst2 ≤ snd2 ∧
      createBridgeCompatiblePaths t [(k1, a), (k2, b)] =
        some ("tools/" ++ t ++ "/" ++ fst2 ++ "/" ++ snd2 ++ ".json") := by
  constructor
  · rcases h with h | h
    · have hc : c = a := congrArg Prod.fst h
      have hd : d = b := congrArg Prod.snd h
      subst hc
      subst hd
      simp only [createBridgeCompatiblePaths]
    · have hc : c = b := congrArg Prod.fst h
      have hd : d = a := congrArg Prod.snd h
      subst hc
      subst hd
      simp only [createBridgeCompatiblePaths]
      rw [sortPairAsc_comm]
  · rcases sortPairAsc_cases (genArgStr a) (genArgStr b) with hs | hs
    · refine ⟨genArgStr a, genArgStr b, Or.inl ⟨rfl, rfl⟩, ?_, ?_⟩
      · have h2 := sortPairAsc_le (genArgStr a) (genArgStr b)
        rw [hs] at h2
        exact h2
      · simp only [createBridgeCompatiblePaths]
        rw [hs]
    · refine ⟨genArgStr b, genArgStr a, Or.inr ⟨rfl, rfl⟩, ?_, ?_⟩
      · have h2 := sortPairAsc_le (genArgStr a) (genArgStr b)
        rw [hs] at h2
        exact h2
      · simp only [createBridgeCompatiblePaths]
        rw [hs]

/-- C4 witness: `{a:"x", b:"y"}` and swapped values give the same concrete
path with the segments in sorted order. -/
theorem twoArg_order_independent_witness :
    createBridgeCompatiblePaths "search" [("a", JsValue.str "x"), ("b", JsValue.str "y")] =
      createBridgeCompatiblePaths "search" [("b", JsValue.str "y"), ("a", JsValue.str "x")] :=
  (twoArg_order_independent "search" "a" "b" "b" "a"
    (JsValue.str "x") (JsValue.str "y") (JsValue.str "y") (JsValue.str "x")
    (Or.inr rfl)).1

/-- C5: for every call with three or more (scalar-valued) arguments the
resolver-side encoder produces `tools/<op>/<hash>.json`, where the hash is the
entries sorted by name (a sorted permutation of the call's entries), rendered
`name=value`, joined with `&`, base64-encoded with `/`,`+` replaced by `_`
and all `=` padding dropped, so that every character of the hash is
base64url (alphanumeric or `_`) and no padding remains. The encoder is a pure
function, so repeated runs on the same arguments give the identical path. -/
theorem threePlusArg_path (t : String) (args : CallArgs) (h : 3 ≤ args.length) :
    simulateBridgeToolToPath t args =
      "tools/" ++ t ++ "/" ++ b64UrlNoPad (canonicalArgString args) ++ ".json" ∧
    List.Perm (sortByName args) args ∧
    List.Pairwise (fun x y : String × JsValue => x.1 ≤ y.1) (sortByName args) ∧
    ∀ c ∈ (b64UrlNoPad (canonicalArgString args)).data,
      (c.isAlphanum ∨ c = '_') ∧ c ≠ '=' := by
  refine ⟨?_, sortByName_perm args, sortByName_sorted args, b64UrlNoPad_chars _⟩
  match args, h with
  | a1 :: a2 :: a3 :: rest, _ => rfl

/-- C5 witness: a concrete three-argument call takes the hash branch and its
encoded segment is base64url and padding-free. -/
theorem threePlusArg_path_witness :
    simulateBridgeToolToPath "list_docs"
      [("c", JsValue.str "3"), ("a", JsValue.str "1"), ("b", JsValue.str "2")] =
      "tools/" ++ "list_docs" ++ "/" ++
        b64UrlNoPad (canonicalArgString
          [("c", JsValue.str "3"), ("a", JsValue.str "1"), ("b", JsValue.str "2")]) ++ ".json" :=
  (threePlusArg_path "list_docs"
    [("c", JsValue.str "3"), ("a", JsValue.str "1"), ("b", JsValue.str "2")] (by decide)).1

/-- C6: a zero-argument call maps, on both the writer side and the resolver
side, to `tools/<op>.json` — the base directory name with suffix `.json`,
a sibling of the operation's directory `tools/<op>/` rather than a file
inside it; in particular `list_resources` with `{}` maps to
`tools/list_resources.json`. -/
theorem zeroArg_path (toolName : String) :
    createBridgeCompatiblePaths toolName [] = some ("tools/" ++ toolName ++ ".json") ∧
    simulateBridgeToolToPath toolName [] = "tools/" ++ toolName ++ ".json" ∧
    createBridgeCompatiblePaths "list_resources" [] = some "tools/list_resources.json" := by
  exact ⟨rfl, rfl, by decide⟩

theorem find_map_assign (m : List (String × YVal)) (k : String) (v : YVal) (k2 : String) :
    (((m.map fun kv => if kv.1 = k then (k, v) else kv).find? fun kv => kv.1 == k2).map
        fun kv => kv.2) =
      ((m.find? fun kv => kv.1 == k2).map fun kv => if kv.1 = k then v else kv.2) := by
  induction m with
  | nil => rfl
  | cons kv m2 ih =>
    by_cases hk : kv.1 = k
    · by_cases h2 : kv.1 = k2
      · have hkk2 : k = k2 := hk.symm.trans h2
        subst hkk2
        simp [List.find?_cons, hk, h2]
      · simp only [List.map_cons, if_pos hk, List.find?_cons]
        rw [show ((k, v).1 == k2) = false by simp [← hk, h2]]
        rw [show (kv.1 == k2) = false by simpa using h2]
        exact ih
    · by_cases h2 : kv.1 = k2
      · have hne : k2 ≠ k := fun he => hk (h2.trans he)
        simp [List.find?_cons, hk, h2, hne]
      · simp only [List.map_cons, if_neg hk, List.find?_cons]
        rw [show (kv.1 == k2) = false by simpa using h2]
        exact ih

theorem lookupKey_jsAssign (m : List (String × YVal)) (k : String) (v : YVal) (k2 : String) :
    lookupKey k2 (jsAssign m k v) = if k = k2 then some v else lookupKey k2 m := by
  unfold jsAssign lookupKey
  split
  · rename_i hany
    rw [find_map_assign]
    by_cases hk2 : k = k2
    · subst hk2
      obtain ⟨x, hx, hpx⟩ := List.any_eq_true.mp hany
      have hsome : (m.find? fun kv2 => kv2.1 == k).isSome := by
        rw [List.find?_isSome]
        exact ⟨x, hx, hpx⟩
      obtain ⟨kv, hf⟩ := Option.isSome_iff_exists.mp hsome
      have hfst : kv.1 = k := by simpa using List.find?_some hf
      simp [hf, hfst]
    · rw [if_neg hk2]
      cases hf : m.find? fun kv => kv.1 == k2 with
      | none => rfl
      | some kv =>
        have hfst : kv.1 = k2 := by simpa using List.find?_some hf
        have hne : kv.1 ≠ k := by
          rw [hfst]
          exact fun h => hk2 h.symm
        simp [hf, hne]
  · rename_i hany
    rw [List.find?_append]
    by_cases hk2 : k = k2
    · subst hk2
      have hnone : (m.find? fun kv => kv.1 == k) = none := by
        rw [List.find?_eq_none]
        intro x hx
        simp only [List.any_eq_true, not_exists, not_and] at hany
        simpa using hany x hx
      simp [hnone, List.find?_cons]
    · cases hf : m.find? fun kv => kv.1 == k2 with
      | some kv => simp [hf, hk2]
      | none =>
        simp only [hf, Option.none_orElse, if_neg hk2]
        rw [List.find?_cons]
        rw [show ((k, v).1 == k2) = false by simpa using hk2]
        simp

theorem jsAssign_keys (m : List (String × YVal)) (k : String) (v : YVal) :
    (jsAssign m k v).map Prod.fst =
      if m.any (fun kv => kv.1 == k) then m.map Prod.fst else m.map Prod.fst ++ [k] := by
  unfold jsAssign
  split
  · rw [List.map_map]
    refine List.map_congr_left ?_
    intro kv _
    by_cases hk : kv.1 = k
    · simp [Function.comp, hk]
    · simp [Function.comp, hk]
  · simp

theorem jsAssign_keys_nodup (m : List (String × YVal)) (k : String) (v : YVal)
    (h : ((m.map Prod.fst).Nodup)) : ((jsAssign m k v).map Prod.fst).Nodup := by
  rw [jsAssign_keys]
  split
  · exact h
  · rename_i hany
    have hk : k ∉ m.map Prod.fst := by
      intro hmem
      apply hany
      rw [List.mem_map] at hmem
      obtain ⟨kv, hkv, hfst⟩ := hmem
      rw [List.any_eq_true]
      exact ⟨kv, hkv, by simp [hfst]⟩
    simp [List.nodup_append, h, hk]

theorem parseYamlMap_foldl_nodup (seq m : List (String × YVal))
    (h : (m.map Prod.fst).Nodup) :
    ((seq.foldl (fun m2 kv => jsAssign m2 kv.1 kv.2) m).map Prod.fst).Nodup := by
  induction seq generalizing m with
  | nil => exact h
  | cons kv seq2 ih =>
    exact ih (jsAssign m kv.1 kv.2) (jsAssign_keys_nodup m kv.1 kv.2 h)

theorem lookupKey_foldl (seq m : List (String × YVal)) (k : String) :
    lookupKey k (seq.foldl (fun m2 kv => jsAssign m2 kv.1 kv.2) m) =
      match lastAssignedValue k seq with
      | some v => some v
      | none => lookupKey k m := by
  induction seq generalizing m with
  | nil => rfl
  | cons kv seq2 ih =>
    rw [List.foldl_cons, ih (jsAssign m kv.1 kv.2)]
    unfold lastAssignedValue
    rw [List.reverse_cons, List.find?_append]
    cases hf : seq2.reverse.find? (fun kv2 => kv2.1 == k) with
    | some kv2 => simp [hf]
    | none =>
      simp only [hf, Option.map, Option.none_orElse, List.find?_cons, List.find?_nil]
      rw [lookupKey_jsAssign]
      by_cases hk : kv.1 = k
      · simp [hk]
      · rw [show (kv.1 == k) = false by simpa using hk, if_neg hk]
        simp

/-- C9: whatever the metadata block text, the mapping `parseYaml` returns has
pairwise-distinct keys, and each key is bound to the value of the last
`result[key] = value` assignment the loop performed for it — i.e. the value
of the last processed `key: value` line with that key (`yamlAssignSeq`
records exactly those assignments in processing order). In particular, when
one key occurs on several lines the mapping has exactly one entry for it,
holding the last occurrence's value. -/
theorem parseYaml_last_wins (y : String) (k : String) :
    ((parseYaml y).map Prod.fst).Nodup ∧
    lookupKey k (parseYaml y) = lastAssignedValue k (yamlAssignSeq (splitNl y)) := by
  constructor
  · exact parseYamlMap_foldl_nodup _ [] (by simp)
  · unfold parseYaml parseYamlMap
    rw [lookupKey_foldl]
    cases lastAssignedValue k (yamlAssignSeq (splitNl y)) <;> rfl

/-- C7: when the fenced frontmatter pattern does not match, and the brace
pattern either does not match or its re-wrapped group fails to parse as JSON
(the host throw is modelled by `jsonParse` returning `none`),
`parseFrontmatter` returns the empty mapping together with the full original
text unchanged; the function is total, so no error escapes to the caller. -/
theorem parseFrontmatter_graceful (jsonParse : String → Option (List (String × YVal)))
    (content : String) (hy : yamlFmMatch content = none)
    (hj : ∀ g1 g2, jsonFmMatch content = some (g1, g2) →
      jsonParse ("\x7b" ++ g1 ++ "\x7d") = none) :
    parseFrontmatter jsonParse content = ⟨[], content⟩ := by
  unfold parseFrontmatter
  rw [hy]
  cases hjm : jsonFmMatch content with
  | none => rfl
  | some g =>
    have hp := hj g.1 g.2 hjm
    simp only [hp]

/-- C7 witness: on a plain text with neither pattern, the result is the
empty mapping and the unchanged text. -/
theorem parseFrontmatter_graceful_witness :
    parseFrontmatter (fun _ => none) "plain text body" =
      ⟨[], "plain text body"⟩ :=
  parseFrontmatter_graceful (fun _ => none) "plain text body" (by decide)
    (fun g1 g2 h => by
      rw [show jsonFmMatch "plain text body" = none from by decide] at h)

theorem trimLeftChars_cons_nonws (c : Char) (l : List Char) (h : jsWhitespaceChar c = false) :
    trimLeftChars (c :: l) = c :: l := by
  simp [trimLeftChars, List.dropWhile_cons, h]

theorem trimRightChars_concat_nonws (l : List Char) (c : Char)
    (h : jsWhitespaceChar c = false) : trimRightChars (l ++ [c]) = l ++ [c] := by
  simp [trimRightChars, List.dropWhile_cons, h]

theorem jsTrim_eq_self (s : String) (c : Char) (t : List Char) (c2 : Char) (l2 : List Char)
    (hd : s.data = c :: t) (h : jsWhitespaceChar c = false)
    (hd2 : s.data = l2 ++ [c2]) (h2 : jsWhitespaceChar c2 = false) :
    jsTrim s = s := by
  unfold jsTrim
  rw [hd, trimLeftChars_cons_nonws c t h, ← hd, hd2, trimRightChars_concat_nonws l2 c2 h2,
    ← hd2, mk_data]

theorem plainKey_head (k : String) (hk : plainKey k) :
    ∃ c t, k.data = c :: t ∧ jsWhitespaceChar c = false ∧ c ≠ ':' ∧ c ≠ '#' := by
  obtain ⟨hne, hch⟩ := hk
  cases hd : k.data with
  | nil => exact absurd ((data_eq_nil_iff k).mp hd) hne
  | cons c t =>
    have hc := hch c (by rw [hd]; simp)
    exact ⟨c, t, rfl, hc.1, hc.2.1, hc.2.2⟩

theorem mem_dropWhile_of_mem (p : Char → Bool) (l : List Char) (c : Char)
    (hc : c ∈ l) (h : p c = false) : c ∈ l.dropWhile p := by
  have hsplit : c ∈ l.takeWhile p ++ l.dropWhile p := by
    rw [List.takeWhile_append_dropWhile]
    exact hc
  rcases List.mem_append.mp hsplit with h2 | h2
  · exact absurd (List.mem_takeWhile_imp h2) (by simp [h])
  · exact h2

theorem mem_jsTrim (line : String) (c : Char) (hc : c ∈ line.data)
    (h : jsWhitespaceChar c = false) : c ∈ (jsTrim line).data := by
  unfold jsTrim trimRightChars trimLeftChars
  rw [data_mk, List.mem_reverse]
  refine mem_dropWhile_of_mem _ _ _ ?_ h
  rw [List.mem_reverse]
  exact mem_dropWhile_of_mem _ _ _ hc h

theorem isBlank_eq_false (line : String) (c : Char) (hc : c ∈ line.data)
    (h : jsWhitespaceChar c = false) : isBlank line = false := by
  unfold isBlank
  rw [beq_eq_false_iff_ne]
  intro he
  have hmem := mem_jsTrim line c hc h
  rw [he] at hmem
  simp at hmem

theorem strStartsWith_hash_false (s : String) (c : Char) (t : List Char)
    (hd : s.data = c :: t) (hc : c ≠ '#') : strStartsWith s "#" = false := by
  unfold strStartsWith
  rw [hd]
  show (['#'].isPrefixOf (c :: t)) = false
  simp [List.isPrefixOf]
  intro he
  exact absurd he.symm hc

theorem strContainsChar_iff (s : String) (c : Char) :
    strContainsChar s c = true ↔ c ∈ s.data := by
  unfold strContainsChar
  simp [List.contains]

theorem beforeColonAux_append (l r : List Char) (h : ∀ c ∈ l, c ≠ ':') :
    beforeColonAux (l ++ ':' :: r) = l := by
  induction l with
  | nil => simp [beforeColonAux]
  | cons c l2 ih =>
    rw [List.cons_append]
    unfold beforeColonAux
    rw [if_neg (h c (by simp))]
    rw [ih (fun x hx => h x (by simp [hx]))]

theorem afterColonAux_append (l r : List Char) (h : ∀ c ∈ l, c ≠ ':') :
    afterColonAux (l ++ ':' :: r) = r := by
  induction l with
  | nil => simp [afterColonAux]
  | cons c l2 ih =>
    rw [List.cons_append]
    unfold afterColonAux
    rw [if_neg (h c (by simp))]
    exact ih (fun x hx => h x (by simp [hx]))

theorem indentOf_head_nonws (line : String) (c : Char) (t : List Char)
    (hd : line.data = c :: t) (h : jsWhitespaceChar c = false) : indentOf line = 0 := by
  unfold indentOf
  rw [hd, trimLeftChars_cons_nonws c t h]
  simp

theorem trimLeftChars_replicate_space (n : Nat) (l : List Char) :
    trimLeftChars (List.replicate n ' ' ++ l) = trimLeftChars l := by
  induction n with
  | zero => simp
  | succ n2 ih =>
    rw [List.replicate_succ, List.cons_append]
    unfold trimLeftChars at *
    rw [List.dropWhile_cons, if_pos (by decide)]
    exact ih

theorem indentOf_indented (n : Nat) (c : Char) (t : List Char) (line : String)
    (hd : line.data = List.replicate n ' ' ++ c :: t) (h : jsWhitespaceChar c = false) :
    indentOf line = n := by
  unfold indentOf
  rw [hd, trimLeftChars_replicate_space, trimLeftChars_cons_nonws c t h]
  simp

theorem jsSubstringFrom_indent (ind line2 : String) (n : Nat)
    (hind : ind.data = List.replicate n ' ') :
    jsSubstringFrom (ind ++ line2) n = line2 := by
  unfold jsSubstringFrom
  rw [data_append, hind]
  have hdrop := List.drop_left (List.replicate n ' ') line2.data
  rw [List.length_replicate] at hdrop
  rw [hdrop, mk_data]

theorem literalCollect_blank (base : Nat) (l : String) (ls : List String)
    (hb : isBlank l = true) :
    literalCollect base (l :: ls) =
      ("" :: (literalCollect base ls).1, (literalCollect base ls).2) := by
  conv_lhs => rw [literalCollect]
  rw [if_pos hb]

theorem literalCollect_stop (base : Nat) (l : String) (ls : List String)
    (hb : isBlank l = false) (hi : indentOf l < base) :
    literalCollect base (l :: ls) = ([], l :: ls) := by
  conv_lhs => rw [literalCollect]
  rw [if_neg (by simp [hb]), if_pos hi]

theorem literalCollect_push (base : Nat) (l : String) (ls : List String)
    (hb : isBlank l = false) (hi : ¬ indentOf l < base) :
    literalCollect base (l :: ls) =
      (jsSubstringFrom l base :: (literalCollect base ls).1, (literalCollect base ls).2) := by
  conv_lhs => rw [literalCollect]
  rw [if_neg (by simp [hb]), if_neg hi]

theorem literalCollect_nil (base : Nat) : literalCollect base [] = ([], []) := rfl

theorem literalCollect_blanks_stop (base : Nat) (m : Nat) (l2 : String)
    (hb : isBlank l2 = false) (hi : indentOf l2 < base) :
    literalCollect base (List.replicate m "" ++ [l2]) = (List.replicate m "", [l2]) := by
  induction m with
  | zero =>
    simpa using literalCollect_stop base l2 [] hb hi
  | succ m2 ih =>
    rw [List.replicate_succ, List.cons_append,
      literalCollect_blank _ _ _ (by decide), ih]

theorem joinWith_newlines (x : String) (m : Nat) :
    joinWith "\n" (x :: List.replicate m "") = x ++ String.mk (List.replicate m '\n') := by
  induction m generalizing x with
  | zero =>
    show x = x ++ ""
    simp
  | succ m2 ih =>
    rw [List.replicate_succ]
    show x ++ "\n" ++ joinWith "\n" ("" :: List.replicate m2 "") =
      x ++ String.mk (List.replicate (m2 + 1) '\n')
    rw [ih ""]
    apply String.ext
    simp [data_append, List.replicate_succ]

/-- A line of the shape `<key> ++ ":" ++ <tail>` with a plain key and a
non-whitespace final character is processed by the `parseYaml` loop as a
`key: value` line whose key is `key` and whose raw value text is `tail`. -/
theorem yamlAssignSeq_keyline (key suf : String) (rest : List String)
    (hkey : plainKey key) (sufrest : List Char) (hsuf : suf.data = ':' :: sufrest)
    (c2 : Char) (l2 : List Char) (hlast : (key ++ suf).data = l2 ++ [c2])
    (h2 : jsWhitespaceChar c2 = false)
    (hval : jsTrim (String.mk sufrest) = "" ∨ jsTrim (String.mk sufrest) = "|" ∨
      jsTrim (String.mk sufrest) = ">") :
    yamlAssignSeq ((key ++ suf) :: rest) =
      (key, (parseMultilineValue (key ++ suf) rest).1) ::
        yamlAssignSeq (parseMultilineValue (key ++ suf) rest).2 := by
  obtain ⟨c0, t0, hk0, hw0, hc0, hh0⟩ := plainKey_head key hkey
  obtain ⟨hne, hch⟩ := hkey
  have hdata : (key ++ suf).data = key.data ++ ':' :: sufrest := by
    rw [data_append, hsuf]
  have hdatac : (key ++ suf).data = c0 :: (t0 ++ ':' :: sufrest) := by
    rw [hdata, hk0]
    rfl
  have htrim : jsTrim (key ++ suf) = key ++ suf :=
    jsTrim_eq_self _ c0 _ c2 l2 hdatac hw0 hlast h2
  have hblank : isBlank (key ++ suf) = false :=
    isBlank_eq_false _ c0 (by rw [hdatac]; simp) hw0
  have hhash : strStartsWith (jsTrim (key ++ suf)) "#" = false := by
    rw [htrim]
    exact strStartsWith_hash_false _ c0 _ hdatac hh0
  have hcontraw : strContainsChar (key ++ suf) ':' = true := by
    rw [strContainsChar_iff, hdata]
    simp
  have hcont : strContainsChar (jsTrim (key ++ suf)) ':' = true := by
    rw [htrim]
    exact hcontraw
  have hkeych : ∀ c ∈ key.data, c ≠ ':' := fun c hc => (hch c hc).2.1
  have hbefore : jsBeforeFirstColon (jsTrim (key ++ suf)) = key := by
    rw [htrim]
    unfold jsBeforeFirstColon
    rw [if_pos hcontraw, hdata, beforeColonAux_append _ _ hkeych, mk_data]
  have hafterraw : jsAfterFirstColon (key ++ suf) = String.mk sufrest := by
    unfold jsAfterFirstColon
    rw [if_pos hcontraw, hdata, afterColonAux_append _ _ hkeych]
  have hafter : jsAfterFirstColon (jsTrim (key ++ suf)) = String.mk sufrest := by
    rw [htrim]
    exact hafterraw
  have hkeytrim : jsTrim key = key := by
    rcases List.eq_nil_or_concat key.data with hnil | ⟨l3, c3, hc3⟩
    · exact absurd ((data_eq_nil_iff key).mp hnil) hne
    · rw [List.concat_eq_append] at hc3
      have hw3 : jsWhitespaceChar c3 = false := (hch c3 (by rw [hc3]; simp)).1
      exact jsTrim_eq_self key c0 t0 c3 l3 hk0 hw0 hc3 hw3
  rw [yamlAssignSeq]
  rw [if_neg (by simp [hblank, hhash])]
  rw [if_neg (by simp [hcont])]
  rw [if_pos (by rw [hafter]; exact hval)]
  rw [hbefore, hkeytrim]

theorem parseMultilineValue_literal (key : String) (rest : List String) (hkey : plainKey key) :
    parseMultilineValue (key ++ ": |") rest =
      (YVal.scalar (YScalar.s (joinWith "\n" (literalCollect (baseIndentOf rest) rest).1)),
        (literalCollect (baseIndentOf rest) rest).2) := by
  have hkeych : ∀ c ∈ key.data, c ≠ ':' := fun c hc => ((hkey.2) c hc).2.1
  have hdata : (key ++ ": |").data = key.data ++ ':' :: [' ', '|'] := by
    rw [data_append]
  have hafter : jsAfterFirstColon (key ++ ": |") = String.mk [' ', '|'] := by
    unfold jsAfterFirstColon
    rw [if_pos (by rw [strContainsChar_iff, hdata]; simp), hdata,
      afterColonAux_append _ _ hkeych]
  unfold parseMultilineValue
  rw [hafter]
  rw [if_pos (by decide)]

theorem yamlAssignSeq_literal (key : String) (rest : List String) (hkey : plainKey key) :
    yamlAssignSeq ((key ++ ": |") :: rest) =
      (key,
        YVal.scalar (YScalar.s (joinWith "\n" (literalCollect (baseIndentOf rest) rest).1))) ::
        yamlAssignSeq (literalCollect (baseIndentOf rest) rest).2 := by
  have h := yamlAssignSeq_keyline key ": |" rest hkey [' ', '|'] rfl '|'
    (key.data ++ [':', ' ']) (by rw [data_append]; simp) (by decide)
    (Or.inr (Or.inl (by decide)))
  rw [h, parseMultilineValue_literal key rest hkey]

/-- C8: a metadata block whose lines are a key line with value exactly `|`
followed by two lines indented by the block's base indent containing
`line one` and `line two` parses, at that key, to the two-line string
`"line one\nline two"`: each collected line has exactly the base indent
stripped and the lines are joined with a newline. -/
theorem literalBlock_roundTrip (y key ind : String) (n : Nat)
    (hkey : plainKey key) (hind : ind.data = List.replicate n ' ')
    (hsplit : splitNl y = [key ++ ": |", ind ++ "line one", ind ++ "line two"]) :
    lookupKey key (parseYaml y) = some (YVal.scalar (YScalar.s "line one\nline two")) := by
  have hd1 : (ind ++ "line one").data = List.replicate n ' ' ++ 'l' :: "ine one".data := by
    rw [data_append, hind]
  have hd2 : (ind ++ "line two").data = List.replicate n ' ' ++ 'l' :: "ine two".data := by
    rw [data_append, hind]
  have hb1 : isBlank (ind ++ "line one") = false :=
    isBlank_eq_false _ 'l' (by rw [hd1]; simp) (by decide)
  have hb2 : isBlank (ind ++ "line two") = false :=
    isBlank_eq_false _ 'l' (by rw [hd2]; simp) (by decide)
  have hi1 : indentOf (ind ++ "line one") = n := indentOf_indented n 'l' _ _ hd1 (by decide)
  have hi2 : indentOf (ind ++ "line two") = n := indentOf_indented n 'l' _ _ hd2 (by decide)
  have hbase : baseIndentOf [ind ++ "line one", ind ++ "line two"] = n := by
    unfold baseIndentOf
    rw [if_neg (by simp [hb1]), hi1]
  have hlc : literalCollect n [ind ++ "line one", ind ++ "line two"] =
      (["line one", "line two"], []) := by
    rw [literalCollect_push _ _ _ hb1 (by rw [hi1]; omega)]
    rw [literalCollect_push _ _ _ hb2 (by rw [hi2]; omega)]
    rw [jsSubstringFrom_indent ind "line one" n hind,
      jsSubstringFrom_indent ind "line two" n hind]
    rfl
  unfold parseYaml
  rw [hsplit]
  rw [yamlAssignSeq_literal key _ hkey, hbase, hlc]
  rw [yamlAssignSeq]
  unfold parseYamlMap
  rw [List.foldl_cons, List.foldl_nil, lookupKey_jsAssign, if_pos rfl]
  show some (YVal.scalar (YScalar.s (joinWith "\n" ["line one", "line two"]))) = _
  decide

/-- C8 witness: the concrete block `desc: |` with two two-space-indented
lines parses to the two-line string. -/
theorem literalBlock_roundTrip_witness :
    lookupKey "desc" (parseYaml "desc: |\n  line one\n  line two") =
      some (YVal.scalar (YScalar.s "line one\nline two")) :=
  literalBlock_roundTrip "desc: |\n  line one\n  line two" "desc" "  " 2
    (by decide) (by decide) (by decide)

theorem parseMultilineValue_emptyval (key2 : String) (hkey2 : plainKey key2) :
    parseMultilineValue (key2 ++ ":") [] = (YVal.arr [], []) := by
  have hkeych : ∀ c ∈ key2.data, c ≠ ':' := fun c hc => ((hkey2.2) c hc).2.1
  have hdata : (key2 ++ ":").data = key2.data ++ ':' :: [] := by
    rw [data_append]
  have hafter : jsAfterFirstColon (key2 ++ ":") = String.mk [] := by
    unfold jsAfterFirstColon
    rw [if_pos (by rw [strContainsChar_iff, hdata]; simp), hdata,
      afterColonAux_append _ _ hkeych]
  unfold parseMultilineValue
  rw [hafter]
  rw [if_neg (by decide), if_neg (by decide)]
  rfl

theorem yamlAssignSeq_emptyval (key2 : String) (hkey2 : plainKey key2) :
    yamlAssignSeq [key2 ++ ":"] = [(key2, YVal.arr [])] := by
  have h := yamlAssignSeq_keyline key2 ":" [] hkey2 [] rfl ':'
    key2.data (by rw [data_append]) (by decide) (Or.inl (by decide))
  rw [h, parseMultilineValue_emptyval key2 hkey2, yamlAssignSeq]

/-- C10: in the literal-block reader a blank line never ends the block: a
`|` block with one content line followed by `m` blank lines and then a
dedented key line binds the key to the content followed by exactly `m`
newline characters (each blank line contributed an empty collected line),
and the dedented line is processed as the next key. -/
theorem literalBlock_blankLines (y key key2 ind : String) (n m : Nat)
    (ch : Char) (ct : List Char)
    (hkey : plainKey key) (hkey2 : plainKey key2) (hkk : key2 ≠ key)
    (hind : ind.data = List.replicate (n + 1) ' ') (hch : jsWhitespaceChar ch = false)
    (hsplit : splitNl y = (key ++ ": |") :: (ind ++ String.mk (ch :: ct)) ::
      (List.replicate m "" ++ [key2 ++ ":"])) :
    lookupKey key (parseYaml y) =
      some (YVal.scalar (YScalar.s
        (String.mk (ch :: ct) ++ String.mk (List.replicate m '\n')))) := by
  obtain ⟨c0, t0, hk0, hw0, hc0, hh0⟩ := plainKey_head key2 hkey2
  have hd1 : (ind ++ String.mk (ch :: ct)).data = List.replicate (n + 1) ' ' ++ ch :: ct := by
    rw [data_append, hind]
  have hb1 : isBlank (ind ++ String.mk (ch :: ct)) = false :=
    isBlank_eq_false _ ch (by rw [hd1]; simp) hch
  have hi1 : indentOf (ind ++ String.mk (ch :: ct)) = n + 1 :=
    indentOf_indented _ ch _ _ hd1 hch
  have hd2 : (key2 ++ ":").data = c0 :: (t0 ++ [':']) := by
    rw [data_append, hk0]
    rfl
  have hb2 : isBlank (key2 ++ ":") = false :=
    isBlank_eq_false _ c0 (by rw [hd2]; simp) hw0
  have hi2 : indentOf (key2 ++ ":") = 0 := indentOf_head_nonws _ c0 _ hd2 hw0
  have hbase : baseIndentOf ((ind ++ String.mk (ch :: ct)) ::
      (List.replicate m "" ++ [key2 ++ ":"])) = n + 1 := by
    unfold baseIndentOf
    rw [if_neg (by simp [hb1]), hi1]
  have hlc : literalCollect (n + 1) ((ind ++ String.mk (ch :: ct)) ::
      (List.replicate m "" ++ [key2 ++ ":"])) =
      (String.mk (ch :: ct) :: List.replicate m "", [key2 ++ ":"]) := by
    rw [literalCollect_push _ _ _ hb1 (by rw [hi1]; omega)]
    rw [literalCollect_blanks_stop _ _ _ hb2 (by rw [hi2]; omega)]
    rw [jsSubstringFrom_indent ind _ (n + 1) hind]
  unfold parseYaml
  rw [hsplit]
  rw [yamlAssignSeq_literal key _ hkey, hbase, hlc]
  rw [yamlAssignSeq_emptyval key2 hkey2]
  rw [joinWith_newlines]
  unfold parseYamlMap
  rw [List.foldl_cons, List.foldl_cons, List.foldl_nil]
  rw [lookupKey_jsAssign, if_neg hkk, lookupKey_jsAssign, if_pos rfl]

/-- C10 witness: `k: |` with content `a`, one blank line, then a dedented
`j:` line gives `k` the value `"a\n"` (one trailing newline). -/
theorem literalBlock_blankLines_witness :
    lookupKey "k" (parseYaml "k: |\n  a\n\nj:") =
      some (YVal.scalar (YScalar.s ("a" ++ "\n"))) :=
  literalBlock_blankLines "k: |\n  a\n\nj:" "k" "j" "  " 1 1 'a' []
    (by decide) (by decide) (by decide) (by decide) (by decide) (by decide)

end StaticMCP
